import Mathlib

/-!
Shallow embedding of the statistical core of the `pade` repository
(`src/pade/stat.py`) and proofs of the specification claims about it.

Conventions used throughout:
* numpy arrays over the last axis are embedded as `List ℚ` (exact rational
  arithmetic in place of float64); two-dimensional data tensors are
  `List (List ℚ)` (rows = features, columns = samples);
* a layout is a `List (List Nat)` of sample-axis indices, exactly as in the
  source;
* numpy operations that raise (`IndexError` on an out-of-range fancy index,
  the explicit `raise` statements in the source) are modelled with `Option`:
  `none` stands for "the call raises";
* the hidden numpy random generator is passed in explicitly as an oracle
  function, so every definition stays deterministic and executable.
-/

namespace PadeStat

/-- Total number of indices mentioned by a layout (`sum(map(len, layout))`). -/
def lenLayout (layout : List (List Nat)) : Nat :=
  (layout.map List.length).sum

/-- `True` iff every index of the layout is a legal index into a data row of
length `n`.  numpy fancy indexing `data[..., list(idxs)]` succeeds exactly in
this case (layout indices are non-negative in pade). -/
def layoutInRange (n : Nat) (layout : List (List Nat)) : Bool :=
  layout.all fun g => g.all fun i => i < n

/-- Mean of one layout group of `data` (`np.mean(data[..., list(g)])` for the
last axis of a 1-d array). -/
def groupMean (data : List ℚ) (g : List Nat) : ℚ :=
  ((g.map fun i => data.getD i 0).sum) / (g.length : ℚ)

/-- `group_means(data, layout)` (src/pade/stat.py lines 65-103), for one
feature row: the mean of each layout group, one entry per group. -/
def group_means (data : List ℚ) (layout : List (List Nat)) : List ℚ :=
  layout.map fun g => groupMean data g

/-- `residuals(data, layout)` (src/pade/stat.py lines 105-125) for one feature
row: start from `np.zeros_like(data)` and, for each group, write
`data[idx] - mean(group)` at each index of the group. -/
def residuals (data : List ℚ) (layout : List (List Nat)) : List ℚ :=
  layout.foldl
    (fun acc g =>
      g.foldl (fun a i => a.set i (data.getD i 0 - groupMean data g)) acc)
    (List.replicate data.length 0)

/-- `group_rss(data, layout)` (src/pade/stat.py lines 127-137) for one feature
row: the sum of the squared residuals over the last axis. -/
def group_rss (data : List ℚ) (layout : List (List Nat)) : ℚ :=
  ((residuals data layout).map fun x => x * x).sum

/-- `group_means` including the numpy error behaviour: `none` models the
`IndexError` raised by `data[..., list(idxs)]` when some index is out of
range.  No other validation is performed by the source. -/
def group_means_chk (data : List ℚ) (layout : List (List Nat)) :
    Option (List ℚ) :=
  if layoutInRange data.length layout then some (group_means data layout)
  else none

/-- `residuals` including the numpy error behaviour (see `group_means_chk`). -/
def residuals_chk (data : List ℚ) (layout : List (List Nat)) :
    Option (List ℚ) :=
  if layoutInRange data.length layout then some (residuals data layout)
  else none

/-- `group_rss` including the numpy error behaviour (see `group_means_chk`). -/
def group_rss_chk (data : List ℚ) (layout : List (List Nat)) : Option ℚ :=
  if layoutInRange data.length layout then some (group_rss data layout)
  else none

/-- 2-d `group_means`: numpy broadcasting over the leading (feature) axis is
one independent 1-d computation per row. -/
def group_means2 (mat : List (List ℚ)) (layout : List (List Nat)) :
    List (List ℚ) :=
  mat.map fun row => group_means row layout

/-- 2-d `residuals` (per feature row). -/
def residuals2 (mat : List (List ℚ)) (layout : List (List Nat)) :
    List (List ℚ) :=
  mat.map fun row => residuals row layout

/-- 2-d `group_rss` (per feature row). -/
def group_rss2 (mat : List (List ℚ)) (layout : List (List Nat)) : List ℚ :=
  mat.map fun row => group_rss row layout

/-! ### The F-test statistic (src/pade/stat.py lines 153-215) -/

/-- The state stored by `Ftest.__init__`: the two layouts, unchanged, plus the
optional tuning parameters. -/
structure FtestModel where
  layout_full : List (List Nat)
  layout_reduced : List (List Nat)
  alphas : Option (List ℚ)
deriving Repr, DecidableEq

/-- `Ftest.__init__` (src/pade/stat.py lines 188-197): raises
`UnsupportedLayoutException` (modelled as `none`) unless every group of the
full layout has more than one member; otherwise stores the layouts unchanged. -/
def mkFtest (full reduced : List (List Nat)) (alphas : Option (List ℚ)) :
    Option FtestModel :=
  if (full.map List.length).all fun n => 1 < n then
    some ⟨full, reduced, alphas⟩
  else none

/-- `Ftest.__call__` (src/pade/stat.py lines 199-215) on one feature row, with
`alphas=None`:
`((rss_red - rss_full) / (p_full - p_red)) / (rss_full / (n - p_full))`. -/
def ftestStat (full reduced : List (List Nat)) (data : List ℚ) : ℚ :=
  let pRed : ℚ := reduced.length
  let pFull : ℚ := full.length
  let n : ℚ := lenLayout reduced
  let rssFull := group_rss data full
  let rssRed := group_rss data reduced
  ((rssRed - rssFull) / (pFull - pRed)) / (rssFull / (n - pFull))

/-- `Ftest.__call__` with tuning parameters: each alpha is added to the
denominator before the final division, producing one value per alpha. -/
def ftestStatAlphas (full reduced : List (List Nat)) (alphas : List ℚ)
    (data : List ℚ) : List ℚ :=
  let pRed : ℚ := reduced.length
  let pFull : ℚ := full.length
  let n : ℚ := lenLayout reduced
  let rssFull := group_rss data full
  let rssRed := group_rss data reduced
  alphas.map fun a =>
    ((rssRed - rssFull) / (pFull - pRed)) / (rssFull / (n - pFull) + a)

/-! ### Cumulative histograms (src/pade/stat.py lines 357-383) -/

/-- `np.histogram(values, bins)` for 1-d `values` and monotone 1-d `bins`:
bin `j` counts values in `[e_j, e_{j+1})`, except the final bin which is
closed, `[e_{B-1}, e_B]`.  Values outside `[e_0, e_B]` are not counted. -/
def histogram (values : List ℚ) : List ℚ → List Nat
  | [] => []
  | [_] => []
  | [lo, hi] => [values.countP fun v => decide (lo ≤ v ∧ v ≤ hi)]
  | lo :: hi :: e :: rest =>
    (values.countP fun v => decide (lo ≤ v ∧ v < hi)) ::
      histogram values (hi :: e :: rest)

/-- Suffix sums: `np.cumsum(hist[::-1])[::-1]`, entry `i` is the sum of the
entries from `i` to the end. -/
def suffixSums : List Nat → List Nat
  | [] => []
  | x :: xs => (x + (suffixSums xs).headD 0) :: suffixSums xs

/-- `cumulative_hist_shape(bins)` for 1-d bins: the number of bins, one less
than the number of edges (src/pade/stat.py lines 357-366). -/
def cumulative_hist_shape (bins : List ℚ) : Nat :=
  bins.length - 1

/-- `cumulative_hist(values, bins)` (src/pade/stat.py lines 368-383) in the
1-d/1-d shape: the right-cumulative histogram of `values` with respect to the
edge list `bins`, as floats (here ℚ). -/
def cumulative_hist (values : List ℚ) (bins : List ℚ) : List ℚ :=
  (suffixSums (histogram values bins)).map (fun n : Nat => (n : ℚ))

/-- `cumulative_hist(values, bins)` in the shape used by the binning
accumulator: `values` is the 1-d vector of per-feature statistics and `bins`
is a 2-d per-feature edge table; the loop over `np.ndindex` computes, for
each feature `i`, the cumulative histogram of the single value `values[i]`
with respect to the edge row `bins[i]`. -/
def cumulative_hist_pf (values : List ℚ) (bins : List (List ℚ)) :
    List (List ℚ) :=
  (values.zip bins).map fun p => cumulative_hist [p.1] p.2

/-! ### Bootstrap (src/pade/stat.py lines 219-355) -/

/-- `random_indexes(layout, R)` (src/pade/stat.py lines 219-240): row `i` of
the result concatenates, for each group `j` of the layout, `len(grp)` entries
of `grp` chosen by the random generator.  The hidden numpy generator is the
explicit oracle `rand`; reducing its answer `mod` the group size models
`np.random.random_integers(0, nj - 1, nj)` always hitting a legal offset. -/
def random_indexes (layout : List (List Nat)) (R : Nat)
    (rand : Nat → Nat → Nat → Nat) : List (List Nat) :=
  (List.range R).map fun i =>
    layout.enum.flatMap fun jg =>
      (List.range jg.2.length).map fun k =>
        jg.2.getD (rand i jg.1 k % jg.2.length) 0

/-- `np.shape(data)` for a list-of-rows: `(M, N)` when the rows all have the
same length `N`, `(M,)` for a ragged (object-dtype) nesting, `(0,)` when
empty. -/
def npShape (d : List (List ℚ)) : List Nat :=
  match d with
  | [] => [0]
  | r :: rs =>
    if rs.all fun x => x.length = r.length then [rs.length + 1, r.length]
    else [rs.length + 1]

/-- The default sample layout of `bootstrap` when neither `indexes` nor
`sample_layout` is given (src/pade/stat.py line 337):
`[np.arange(np.shape(data)[1])]`.  Taking `shape[1]` raises `IndexError`
(modelled as `none`) when the data has fewer than two dimensions. -/
def defaultSampleLayout (shape : List Nat) : Option (List (List Nat)) :=
  (shape.get? 1).map fun n => [List.range n]

/-- `build_sample` inside `bootstrap` (src/pade/stat.py lines 329-333):
without residuals the sample is `data[..., idxs]`; with residuals it is
`data + residuals[..., idxs]`. -/
def build_sample (data : List (List ℚ)) (residualsOpt : Option (List (List ℚ)))
    (idxs : List Nat) : List (List ℚ) :=
  match residualsOpt with
  | none => data.map fun row => idxs.map fun i => row.getD i 0
  | some res =>
    data.zipWith (fun drow rrow =>
      drow.zipWith (· + ·) (idxs.map fun i => rrow.getD i 0)) res

/-- The index matrix used by `bootstrap` (src/pade/stat.py lines 335-338):
the supplied `indexes` if any, otherwise `R` random rows drawn from the
supplied `sample_layout`, otherwise from the default axis-1 layout. -/
def bootstrapIndexes (data : List (List ℚ)) (R : Nat)
    (sampleLayout indexes : Option (List (List Nat)))
    (rand : Nat → Nat → Nat → Nat) : Option (List (List Nat)) :=
  match indexes with
  | some ix => some ix
  | none =>
    match sampleLayout with
    | some sl => some (random_indexes sl R rand)
    | none => (defaultSampleLayout (npShape data)).map
        fun sl => random_indexes sl R rand

/-- Matrix sum, `res + hist` inside the binning accumulator reduce step. -/
def matAdd (a b : List (List ℚ)) : List (List ℚ) :=
  a.zipWith (fun ra rb => ra.zipWith (· + ·) rb) b

/-- `np.zeros(cumulative_hist_shape(bins))` for a 2-d per-feature edge table:
one row of zeros of length `len(edges) - 1` per feature. -/
def histZeros (bins : List (List ℚ)) : List (List ℚ) :=
  bins.map fun edges => List.replicate (edges.length - 1) 0

/-- `bootstrap(data, stat_fn, R, sample_layout, indexes, residuals, bins)`
(src/pade/stat.py lines 264-355).  `Sum.inl` is the unbinned result (the
list of per-draw statistic rows, in draw order, via `DEFAULT_ACCUMULATOR`);
`Sum.inr` is the binned result: the running `foldl` sum of per-draw
cumulative histograms, divided by `len(indexes)` by the finalizer of
`_binning_accumulator(bins, len(indexes))`. -/
def bootstrap (data : List (List ℚ)) (statFn : List (List ℚ) → List ℚ)
    (R : Nat) (sampleLayout indexes : Option (List (List Nat)))
    (residualsOpt : Option (List (List ℚ))) (bins : Option (List (List ℚ)))
    (rand : Nat → Nat → Nat → Nat) :
    Option (List (List ℚ) ⊕ List (List ℚ)) :=
  (bootstrapIndexes data R sampleLayout indexes rand).map fun idxs =>
    let stats := idxs.map fun p => statFn (build_sample data residualsOpt p)
    match bins with
    | none => Sum.inl stats
    | some b =>
      Sum.inr
        (((stats.foldl (fun acc v => matAdd acc (cumulative_hist_pf v b))
              (histZeros b))).map fun row =>
          row.map fun x => x / (idxs.length : ℚ))

/-! ### Ordering combinatorics (src/pade/stat.py lines 426-579) -/

/-- CPython iteration over a set of small non-negative integers visits them in
increasing order; `set(items)` is therefore modelled as sort-after-dedup. -/
def pySet (l : List Nat) : List Nat :=
  l.dedup.insertionSort (· ≤ ·)

/-- `itertools.combinations(items, k)`: all sorted selections of `k` elements
of `items`, in the order produced by the Python iterator (selections
containing the head come first). -/
def combinations : Nat → List Nat → List (List Nat)
  | 0, _ => [[]]
  | _ + 1, [] => []
  | k + 1, x :: xs =>
    ((combinations k xs).map fun c => x :: c) ++ combinations (k + 1) xs

/-- `all_orderings_within_group(items, sizes)` (src/pade/stat.py lines
467-505), the recursion without its `len(items) != sum(sizes)` guard (the
guard raises `InvalidLayoutException`; it is checked once by the caller in
`all_orderings` below and holds at every recursive call when it holds at the
top).  Chooses every combination of size `sizes[0]`, removes it from the item
set and recurses on the remaining sizes. -/
def all_orderings_within_group : List Nat → List Nat → List (List Nat)
  | _, [] => []
  | items, [s] => combinations s items
  | items, s :: s2 :: rest =>
    (combinations s items).flatMap fun c =>
      (all_orderings_within_group (items.filter fun a => decide (a ∉ c))
          (s2 :: rest)).map fun arr => c ++ arr

/-- The run-matching loop shared by `num_orderings` (lines 453-460) and
`all_orderings` (lines 515-524): consume groups of the full layout until
their total size reaches the size of the current reduced group.  `none`
models both the explicit `raise` when the total overshoots and the
`IndexError`/divergence when the full layout is exhausted too early. -/
def matchRun : List (List Nat) → Nat → Option (List (List Nat) × List (List Nat))
  | full, 0 => some ([], full)
  | [], _ + 1 => none
  | g :: gs, t + 1 =>
    if g.length ≤ t + 1 then
      (matchRun gs (t + 1 - g.length)).map fun p => (g :: p.1, p.2)
    else none

/-- `num_orderings(full)` with no reduced layout (src/pade/stat.py lines
430-443), expressed on the list of group sizes: 1 for at most one group,
otherwise `comb(N, k)` times the count for the remaining groups. -/
def num_orderings_noRed : List Nat → Nat
  | [] => 1
  | [_] => 1
  | k :: k2 :: rest =>
    Nat.choose (k + (k2 :: rest).sum) k * num_orderings_noRed (k2 :: rest)

/-- `num_orderings(full, reduced)` (src/pade/stat.py lines 426-464) for a
present reduced layout (`reduced = []` falls into the no-reduced branch):
match the first reduced group to a contiguous run of full groups and multiply
the run's no-reduced count by the count for the remainder. -/
def num_orderings_red (full : List (List Nat)) :
    List (List Nat) → Option Nat
  | [] => some (num_orderings_noRed (full.map List.length))
  | grp :: rest =>
    match matchRun full grp.length with
    | none => none
    | some p =>
      (num_orderings_red p.2 rest).map fun b =>
        num_orderings_noRed (p.1.map List.length) * b

/-- `num_orderings(full, reduced)` with the `reduced=None` default.  `none`
in the result models the raised `InvalidLayoutException`/`IndexError`. -/
def num_orderings (full : List (List Nat)) :
    Option (List (List Nat)) → Option Nat
  | none => some (num_orderings_noRed (full.map List.length))
  | some reduced => num_orderings_red full reduced

/-- `all_orderings(full, reduced)` (src/pade/stat.py lines 507-530): split the
full layout into runs matching the reduced groups, enumerate each reduced
group's orderings with `all_orderings_within_group` (checking its
`len(items) != sum(sizes)` guard on the deduplicated `set(grp)`), and emit
the itertools-product of the per-group enumerations, each tuple flattened
into one row. -/
def all_orderings (full : List (List Nat)) :
    List (List Nat) → Option (List (List Nat))
  | [] => some [[]]
  | grp :: rest =>
    match matchRun full grp.length with
    | none => none
    | some p =>
      let items := pySet grp
      let sizes := p.1.map List.length
      if items.length = sizes.sum then
        (all_orderings p.2 rest).map fun tails =>
          (all_orderings_within_group items sizes).flatMap fun o =>
            tails.map fun t => o ++ t
      else none

/-- The deduplicating sampling loop of `random_orderings` (src/pade/stat.py
lines 571-579).  `draws` is the stream of results of `random_ordering`
(a finite prefix of the attempts; the Python loop consumes attempts until it
has `R` distinct orderings), `seen` is the `orderings` set.  Yields each draw
that is not yet in the seen set, stopping once `R` distinct orderings have
been yielded. -/
def sampleLoop (R : Nat) : List (List Nat) → List (List Nat) → List (List Nat)
  | [], _ => []
  | d :: ds, seen =>
    if R ≤ seen.length then []
    else if d ∈ seen then sampleLoop R ds seen
    else d :: sampleLoop R ds (d :: seen)

/-- `random_orderings(full, reduced, R)` (src/pade/stat.py lines 540-579):
compute the number `N` of distinguishable orderings; if `R ≥ N`, yield every
exact ordering of `all_orderings`; otherwise repeatedly draw random
orderings (the oracle stream `draws`), deduplicate against the seen set and
yield until `R` distinct orderings have been produced. -/
def random_orderings (full reduced : List (List Nat)) (R : Nat)
    (draws : List (List Nat)) : Option (List (List Nat)) :=
  match num_orderings full (some reduced) with
  | none => none
  | some n =>
    if n ≤ R then all_orderings full reduced
    else some (sampleLoop R draws [])

/-! ### MeansRatio (src/pade/stat.py lines 600-684)

The means-ratio statistic combines per-block ratios with
`scipy.stats.gmean`, i.e. `exp(mean(log(ratios)))`, which for positive
ratios equals `prod(ratios) ** (1/len(ratios))`; it therefore lives in ℝ.
`gmean` of a list containing a non-positive ratio has no real value (the
float code produces `nan` via `log`), modelled as `none`. -/

/-- `group_means` over ℝ (same source lines 65-103 as `group_means`, which is
embedded over ℚ above; `MeansRatio` needs the real-valued version because of
the geometric mean). -/
noncomputable def group_meansR (data : List ℝ) (layout : List (List Nat)) :
    List ℝ :=
  layout.map fun g => ((g.map fun i => data.getD i 0).sum) / (g.length : ℝ)

open Classical in
/-- `scipy.stats.gmean(ratios)` = `exp(mean(log(ratios)))`: for all-positive
input this is `prod(ratios) ** (1 / len(ratios))`; otherwise `log` has no
real value (the float code propagates `nan`), modelled as `none`. -/
noncomputable def gmeanOpt (rs : List ℝ) : Option ℝ :=
  if ∀ r ∈ rs, 0 < r then some (rs.prod ^ ((rs.length : ℝ))⁻¹)
  else none

/-- `MeansRatio.__call__` (src/pade/stat.py lines 646-684) with `alphas=None`,
for one feature row.  `cond0`/`cond1` are the two groups of the condition
layout (`MeansRatio.__init__` requires exactly two).  Per block, the block's
indices are intersected with each condition, block means are taken for both
conditions, their ratio is formed, the ratios are combined across blocks with
the geometric mean, and with `symmetric` any ratio is replaced by
`max(ratio, 1/ratio)`. -/
noncomputable def means_ratio_call (cond0 cond1 : List Nat)
    (blocks : List (List Nat)) (symmetric : Bool) (data : List ℝ) :
    Option ℝ :=
  let c0 := blocks.map fun b => b.filter fun i => decide (i ∈ cond0)
  let c1 := blocks.map fun b => b.filter fun i => decide (i ∈ cond1)
  let m0 := group_meansR data c0
  let m1 := group_meansR data c1
  let ratios := List.zipWith (· / ·) m0 m1
  (gmeanOpt ratios).map fun g => if symmetric then max g (1 / g) else g

/-- Entry `(i, j)` of an embedded 2-d array (0 outside the bounds). -/
def entry (m : List (List ℚ)) (i j : Nat) : ℚ :=
  (m.getD i []).getD j 0

/-- The embedded 2-d array has numpy shape `(M, B)`. -/
def Shaped (m : List (List ℚ)) (M B : Nat) : Prop :=
  m.length = M ∧ ∀ row ∈ m, row.length = B

/-! ### Helper lemmas -/

theorem layoutInRange_eq_true {n : Nat} {layout : List (List Nat)} :
    layoutInRange n layout = true ↔ ∀ g ∈ layout, ∀ i ∈ g, i < n := by
  simp [layoutInRange]

theorem layoutInRange_not_true {n : Nat} {layout : List (List Nat)} :
    ¬ layoutInRange n layout = true ↔ ∃ g ∈ layout, ∃ i ∈ g, n ≤ i := by
  simp [layoutInRange_eq_true, Nat.not_lt]

theorem length_foldl_set (g : List Nat) (f : Nat → ℚ) (a : List ℚ) :
    (g.foldl (fun a i => a.set i (f i)) a).length = a.length := by
  induction g generalizing a with
  | nil => rfl
  | cons i g ih => simpa using ih (a.set i (f i))

theorem residuals_length (data : List ℚ) (layout : List (List Nat)) :
    (residuals data layout).length = data.length := by
  rw [residuals]
  have h : ∀ (ls : List (List Nat)) (a : List ℚ),
      (ls.foldl (fun acc g =>
        g.foldl (fun a i => a.set i (data.getD i 0 - groupMean data g)) acc)
        a).length = a.length := by
    intro ls
    induction ls with
    | nil => intro a; rfl
    | cons g ls ih =>
      intro a
      rw [List.foldl_cons, ih, length_foldl_set]
  simpa using h layout (List.replicate data.length 0)

theorem group_rss_nonneg (data : List ℚ) (layout : List (List Nat)) :
    0 ≤ group_rss data layout := by
  refine List.sum_nonneg ?_
  intro x hx
  rcases List.mem_map.mp hx with ⟨y, _, rfl⟩
  exact mul_self_nonneg y

theorem countP_split (p q r : ℚ → Bool)
    (h : ∀ v, r v = true ↔ (p v = true ∨ q v = true))
    (hd : ∀ v, ¬(p v = true ∧ q v = true)) (values : List ℚ) :
    values.countP r = values.countP p + values.countP q := by
  induction values with
  | nil => rfl
  | cons a l ih =>
    rw [List.countP_cons, List.countP_cons, List.countP_cons, ih]
    by_cases hp : p a = true <;> by_cases hq : q a = true
    · exact absurd ⟨hp, hq⟩ (hd a)
    · have hr : r a = true := (h a).mpr (Or.inl hp)
      simp [hp, hq, hr]
      omega
    · have hr : r a = true := (h a).mpr (Or.inr hq)
      simp [hp, hq, hr]
      omega
    · have hr : ¬ r a = true := fun hr =>
        ((h a).mp hr).elim hp hq
      simp [hp, hq, hr]

theorem histogram_length (values : List ℚ) :
    ∀ bins : List ℚ, (histogram values bins).length = bins.length - 1
  | [] => rfl
  | [_] => rfl
  | [_, _] => rfl
  | lo :: hi :: e :: rest => by
    rw [histogram, List.length_cons, histogram_length values (hi :: e :: rest)]
    simp

theorem suffixSums_length (l : List Nat) : (suffixSums l).length = l.length := by
  induction l with
  | nil => rfl
  | cons x xs ih => simp [suffixSums, ih]

theorem suffixSums_getD_zero (l : List Nat) :
    (suffixSums l).getD 0 0 = (suffixSums l).headD 0 := by
  cases l <;> rfl

theorem head_le_getLastD (a : ℚ) (l : List ℚ)
    (hp : (a :: l).Pairwise (· ≤ ·)) : a ≤ (a :: l).getLast?.getD 0 := by
  have hmem : (a :: l).getLast (List.cons_ne_nil a l) ∈ a :: l :=
    List.getLast_mem _
  have hlast : (a :: l).getLast? = some ((a :: l).getLast (List.cons_ne_nil a l)) :=
    List.getLast?_eq_getLast _ _
  rw [hlast]
  rcases List.mem_cons.mp hmem with h | h
  · rw [Option.getD_some, h]
  · exact (List.pairwise_cons.mp hp).1 _ h

theorem suffix_hist_getD (values : List ℚ) :
    ∀ bins : List ℚ, bins.Pairwise (· ≤ ·) → ∀ i : Nat, i + 1 < bins.length →
      (suffixSums (histogram values bins)).getD i 0 =
        values.countP fun v =>
          decide (bins.getD i 0 ≤ v ∧ v ≤ bins.getLast?.getD 0)
  | [], _, i, hi => by simp at hi
  | [_], _, i, hi => by simp at hi
  | [lo, hi], _, 0, _ => by
    simp [histogram, suffixSums]
  | [lo, hi], _, j + 1, hj => by
    simp only [List.length_cons, List.length_nil] at hj
    omega
  | lo :: hi :: e :: rest, hp, 0, _ => by
    have hp2 : (hi :: e :: rest).Pairwise (· ≤ ·) :=
      (List.pairwise_cons.mp hp).2
    have hIH := suffix_hist_getD values (hi :: e :: rest) hp2 0 (by simp)
    have hlohi : lo ≤ hi :=
      (List.pairwise_cons.mp hp).1 hi (by simp)
    have hhilast : hi ≤ (hi :: e :: rest).getLast?.getD 0 :=
      head_le_getLastD hi (e :: rest) hp2
    rw [histogram]
    rw [show suffixSums ((values.countP fun v => decide (lo ≤ v ∧ v < hi)) ::
          histogram values (hi :: e :: rest)) =
        ((values.countP fun v => decide (lo ≤ v ∧ v < hi)) +
          (suffixSums (histogram values (hi :: e :: rest))).headD 0) ::
          suffixSums (histogram values (hi :: e :: rest)) from rfl]
    rw [List.getD_cons_zero, ← suffixSums_getD_zero, hIH]
    have hsplit := countP_split
      (fun v => decide (lo ≤ v ∧ v < hi))
      (fun v => decide ((hi :: e :: rest).getD 0 0 ≤ v ∧
        v ≤ (hi :: e :: rest).getLast?.getD 0))
      (fun v => decide ((lo :: hi :: e :: rest).getD 0 0 ≤ v ∧
        v ≤ (lo :: hi :: e :: rest).getLast?.getD 0))
      (fun v => by
        simp only [List.getD_cons_zero, List.getLast?_cons_cons,
          decide_eq_true_eq]
        constructor
        · rintro ⟨h1, h2⟩
          by_cases hv : v < hi
          · exact Or.inl ⟨h1, hv⟩
          · exact Or.inr ⟨le_of_not_lt hv, h2⟩
        · rintro (⟨h1, h2⟩ | ⟨h1, h2⟩)
          · exact ⟨h1, le_trans (le_of_lt h2) hhilast⟩
          · exact ⟨le_trans hlohi h1, h2⟩)
      (fun v => by
        simp only [List.getD_cons_zero, decide_eq_true_eq]
        rintro ⟨⟨_, h2⟩, ⟨h3, _⟩⟩
        exact absurd h2 (not_lt_of_le h3))
      values
    rw [hsplit]
  | lo :: hi :: e :: rest, hp, j + 1, hj => by
    have hp2 : (hi :: e :: rest).Pairwise (· ≤ ·) :=
      (List.pairwise_cons.mp hp).2
    have hIH := suffix_hist_getD values (hi :: e :: rest) hp2 j
      (by simpa using Nat.lt_of_succ_lt_succ hj)
    rw [histogram]
    rw [show suffixSums ((values.countP fun v => decide (lo ≤ v ∧ v < hi)) ::
          histogram values (hi :: e :: rest)) =
        ((values.countP fun v => decide (lo ≤ v ∧ v < hi)) +
          (suffixSums (histogram values (hi :: e :: rest))).headD 0) ::
          suffixSums (histogram values (hi :: e :: rest)) from rfl]
    rw [List.getD_cons_succ, hIH, List.getD_cons_succ]
    simp [List.getLast?_cons_cons]

theorem map_natCast_getD (l : List Nat) (i : Nat) :
    ((l.map fun n : Nat => (n : ℚ)).getD i 0) = ((l.getD i 0 : Nat) : ℚ) := by
  induction l generalizing i with
  | nil => simp
  | cons x xs ih =>
    cases i with
    | zero => simp
    | succ j => simpa using ih j

theorem zipWith_div_swap (m0 m1 : List ℝ) :
    List.zipWith (· / ·) m1 m0 =
      (List.zipWith (· / ·) m0 m1).map fun x => x⁻¹ := by
  induction m0 generalizing m1 with
  | nil => cases m1 <;> rfl
  | cons a as ih =>
    cases m1 with
    | nil => rfl
    | cons b bs => simp [ih bs, inv_div]

theorem prod_map_inv (l : List ℝ) : (l.map fun x => x⁻¹).prod = l.prod⁻¹ := by
  induction l with
  | nil => simp
  | cons a as ih => simp [ih, mul_inv, mul_comm]

theorem getD_of_lt {α : Type} (l : List α) (n : Nat) (d : α)
    (h : n < l.length) : l.getD n d = l.get ⟨n, h⟩ := by
  rw [List.getD_eq_getElem?_getD, List.getElem?_eq_getElem h,
    Option.getD_some, List.get_eq_getElem]

theorem getD_map_of_lt {α β : Type} (f : α → β) (l : List α) (i : Nat)
    (d : α) (d2 : β) (h : i < l.length) :
    (l.map f).getD i d2 = f (l.getD i d) := by
  rw [getD_of_lt _ _ _ (by simpa using h), getD_of_lt _ _ _ h]
  simp

theorem getD_zipWith_of_lt {α : Type} (f : α → α → α) (a b : List α)
    (i : Nat) (d : α) (ha : i < a.length) (hb : i < b.length) :
    (List.zipWith f a b).getD i d = f (a.getD i d) (b.getD i d) := by
  rw [getD_of_lt _ _ _ (by simp; omega), getD_of_lt _ _ _ ha,
    getD_of_lt _ _ _ hb]
  simp [List.getElem_zipWith]

theorem matAdd_eq (a c : List (List ℚ)) :
    matAdd a c = List.zipWith (fun ra rb => List.zipWith (· + ·) ra rb) a c :=
  rfl

theorem shaped_matAdd {a c : List (List ℚ)} {M B : Nat}
    (ha : Shaped a M B) (hc : Shaped c M B) : Shaped (matAdd a c) M B := by
  obtain ⟨ha1, ha2⟩ := ha
  obtain ⟨hc1, hc2⟩ := hc
  constructor
  · rw [matAdd_eq, List.length_zipWith, ha1, hc1, Nat.min_self]
  · intro row hrow
    rw [matAdd_eq] at hrow
    rcases List.mem_iff_getElem.mp hrow with ⟨k, hk, hrow2⟩
    rw [← hrow2, List.getElem_zipWith, List.length_zipWith]
    have hka : k < a.length := by
      rw [List.length_zipWith] at hk; omega
    have hkc : k < c.length := by
      rw [List.length_zipWith] at hk; omega
    rw [ha2 _ (List.getElem_mem hka), hc2 _ (List.getElem_mem hkc),
      Nat.min_self]

theorem entry_matAdd {a c : List (List ℚ)} {M B : Nat}
    (ha : Shaped a M B) (hc : Shaped c M B) {i j : Nat}
    (hi : i < M) (hj : j < B) :
    entry (matAdd a c) i j = entry a i j + entry c i j := by
  obtain ⟨ha1, ha2⟩ := ha
  obtain ⟨hc1, hc2⟩ := hc
  have hia : i < a.length := ha1 ▸ hi
  have hic : i < c.length := hc1 ▸ hi
  have hrowa : (a.getD i []).length = B := by
    rw [getD_of_lt _ _ _ hia]
    exact ha2 _ (by rw [List.get_eq_getElem]; exact List.getElem_mem hia)
  have hrowc : (c.getD i []).length = B := by
    rw [getD_of_lt _ _ _ hic]
    exact hc2 _ (by rw [List.get_eq_getElem]; exact List.getElem_mem hic)
  rw [entry, entry, entry, matAdd_eq,
    getD_zipWith_of_lt _ _ _ _ _ hia hic,
    getD_zipWith_of_lt _ _ _ _ _ (hrowa ▸ hj) (hrowc ▸ hj)]

theorem foldl_matAdd (hs : List (List (List ℚ))) (M B : Nat) :
    ∀ z : List (List ℚ), Shaped z M B → (∀ h ∈ hs, Shaped h M B) →
      Shaped (hs.foldl matAdd z) M B ∧
      ∀ i j, i < M → j < B →
        entry (hs.foldl matAdd z) i j =
          entry z i j + (hs.map fun h => entry h i j).sum := by
  induction hs with
  | nil => intro z hz _; exact ⟨hz, fun i j _ _ => by simp⟩
  | cons h hs ih =>
    intro z hz hmem
    have hh : Shaped h M B := hmem h (by simp)
    have hrest : ∀ x ∈ hs, Shaped x M B := fun x hx => hmem x (by simp [hx])
    obtain ⟨hsh, hent⟩ := ih (matAdd z h) (shaped_matAdd hz hh) hrest
    refine ⟨hsh, fun i j hi hj => ?_⟩
    rw [List.foldl_cons, hent i j hi hj, entry_matAdd hz hh hi hj,
      List.map_cons, List.sum_cons]
    ring

theorem shaped_histZeros {b : List (List ℚ)} {M B : Nat}
    (hb : b.length = M) (he : ∀ e ∈ b, e.length = B + 1) :
    Shaped (histZeros b) M B := by
  constructor
  · rw [histZeros, List.length_map, hb]
  · intro row hrow
    rcases List.mem_map.mp hrow with ⟨e, hemem, rfl⟩
    rw [List.length_replicate, he e hemem]
    omega

theorem getD_replicate_zero (n j : Nat) :
    (List.replicate n (0:ℚ)).getD j 0 = 0 := by
  induction n generalizing j with
  | zero => rfl
  | succ n ih =>
    cases j with
    | zero => rfl
    | succ j =>
      simp only [List.replicate_succ, List.getD_cons_succ]
      exact ih j

theorem entry_histZeros {b : List (List ℚ)} (i j : Nat) :
    entry (histZeros b) i j = 0 := by
  rw [entry]
  rcases Nat.lt_or_ge i (histZeros b).length with hi | hi
  · have hrow : (histZeros b).getD i [] ∈ histZeros b := by
      rw [getD_of_lt _ _ _ hi]
      exact List.get_mem _ _ _
    rcases List.mem_map.mp hrow with ⟨e, _, heq⟩
    rw [← heq, getD_replicate_zero]
  · rw [List.getD_eq_getElem?_getD (histZeros b) i,
      List.getElem?_eq_none hi, Option.getD_none]
    rfl

theorem cumulative_hist_length (values bins : List ℚ) :
    (cumulative_hist values bins).length = bins.length - 1 := by
  rw [cumulative_hist, List.length_map, suffixSums_length, histogram_length]

theorem shaped_cumulative_hist_pf {v : List ℚ} {b : List (List ℚ)}
    {M B : Nat} (hv : v.length = M) (hb : b.length = M)
    (he : ∀ e ∈ b, e.length = B + 1) :
    Shaped (cumulative_hist_pf v b) M B := by
  constructor
  · rw [cumulative_hist_pf, List.length_map, List.length_zip, hv, hb,
      Nat.min_self]
  · intro row hrow
    rcases List.mem_map.mp hrow with ⟨p, hp, rfl⟩
    rw [cumulative_hist_length, he p.2 (List.of_mem_zip hp).2]
    simp

theorem length_flatMap {α β : Type} (l : List α) (f : α → List β) :
    (l.flatMap f).length = (l.map fun a => (f a).length).sum := by
  induction l with
  | nil => rfl
  | cons a as ih => simp [List.flatMap_cons, ih]

theorem combinations_length : ∀ (k : Nat) (l : List Nat),
    (combinations k l).length = l.length.choose k
  | 0, _ => by rw [combinations, Nat.choose_zero_right, List.length_singleton]
  | k + 1, [] => by simp [combinations, Nat.choose_zero_succ]
  | k + 1, x :: xs => by
    rw [combinations, List.length_append, List.length_map,
      combinations_length k xs, combinations_length (k + 1) xs,
      List.length_cons, Nat.choose_succ_succ]

theorem sublist_of_mem_combinations : ∀ (k : Nat) (l : List Nat)
    (c : List Nat), c ∈ combinations k l → c.Sublist l
  | 0, l, c, h => by
    rw [combinations, List.mem_singleton] at h
    rw [h]
    exact List.nil_sublist l
  | k + 1, [], c, h => by rw [combinations] at h; exact absurd h (by simp)
  | k + 1, x :: xs, c, h => by
    rw [combinations, List.mem_append] at h
    rcases h with h | h
    · rcases List.mem_map.mp h with ⟨c2, hc2, rfl⟩
      exact List.Sublist.cons₂ x (sublist_of_mem_combinations k xs c2 hc2)
    · exact List.Sublist.cons x (sublist_of_mem_combinations (k + 1) xs c h)

theorem length_of_mem_combinations : ∀ (k : Nat) (l : List Nat)
    (c : List Nat), c ∈ combinations k l → c.length = k
  | 0, l, c, h => by
    rw [combinations, List.mem_singleton] at h
    rw [h, List.length_nil]
  | k + 1, [], c, h => by rw [combinations] at h; exact absurd h (by simp)
  | k + 1, x :: xs, c, h => by
    rw [combinations, List.mem_append] at h
    rcases h with h | h
    · rcases List.mem_map.mp h with ⟨c2, hc2, rfl⟩
      rw [List.length_cons, length_of_mem_combinations k xs c2 hc2]
    · exact length_of_mem_combinations (k + 1) xs c h

theorem nodup_combinations : ∀ (k : Nat) (l : List Nat), l.Nodup →
    (combinations k l).Nodup
  | 0, _, _ => by rw [combinations]; exact List.nodup_singleton _
  | k + 1, [], _ => by rw [combinations]; exact List.nodup_nil
  | k + 1, x :: xs, h => by
    rw [combinations]
    rcases List.nodup_cons.mp h with ⟨hx, hxs⟩
    refine List.Nodup.append ?_ (nodup_combinations (k + 1) xs hxs) ?_
    · exact (nodup_combinations k xs hxs).map fun a b hab => by
        simpa using hab
    · intro c hc1 hc2
      rcases List.mem_map.mp hc1 with ⟨c2, _, rfl⟩
      have hsub := sublist_of_mem_combinations (k + 1) xs _ hc2
      have : x ∈ xs := hsub.mem (by simp)
      exact hx this

theorem length_filter_split (l : List Nat) (p : Nat → Bool) :
    (l.filter p).length + (l.filter fun a => ! p a).length = l.length := by
  induction l with
  | nil => rfl
  | cons a as ih =>
    by_cases h : p a = true
    · simp [List.filter_cons, h]
      omega
    · have h2 : p a = false := by simpa using h
      simp [List.filter_cons, h2]
      omega

theorem filter_mem_eq_of_sublist : ∀ (c l : List Nat), c.Sublist l → l.Nodup →
    (l.filter fun a => decide (a ∈ c)) = c := by
  intro c l hsub
  induction hsub with
  | slnil => intro _; rfl
  | @cons l1 l2 x hsub ih =>
    intro hnd
    rcases List.nodup_cons.mp hnd with ⟨hx, hnd2⟩
    have hxnot : x ∉ l1 := fun hmem => hx (hsub.mem hmem)
    rw [List.filter_cons_of_neg (by simpa using hxnot), ih hnd2]
  | @cons₂ l1 l2 x hsub ih =>
    intro hnd
    rcases List.nodup_cons.mp hnd with ⟨hx, hnd2⟩
    have hcongr : (l2.filter fun a => decide (a ∈ x :: l1)) =
        (l2.filter fun a => decide (a ∈ l1)) := by
      apply List.filter_congr
      intro a ha
      simp only [decide_eq_decide, List.mem_cons]
      constructor
      · rintro (rfl | h)
        · exact absurd ha hx
        · exact h
      · exact fun h => Or.inr h
    rw [List.filter_cons_of_pos (by simp), hcongr, ih hnd2]

theorem length_filter_not_mem (c l : List Nat) (hsub : c.Sublist l)
    (hnd : l.Nodup) :
    (l.filter fun a => decide (a ∉ c)).length = l.length - c.length := by
  have hsplit := length_filter_split l fun a => decide (a ∈ c)
  have heq : (l.filter fun a => decide (a ∉ c)) =
      (l.filter fun a => ! decide (a ∈ c)) := by
    apply List.filter_congr
    intro a _
    rw [decide_not]
  rw [heq]
  rw [filter_mem_eq_of_sublist c l hsub hnd] at hsplit
  omega

theorem sum_map_constant {α : Type} (l : List α) (f : α → Nat) (K : Nat)
    (h : ∀ a ∈ l, f a = K) : (l.map f).sum = l.length * K := by
  induction l with
  | nil => simp
  | cons a as ih =>
    rw [List.map_cons, List.sum_cons, List.length_cons,
      h a (by simp), ih fun x hx => h x (by simp [hx])]
    ring

theorem aowg_mem_length : ∀ (sizes items : List Nat), items.Nodup →
    items.length = sizes.sum →
    ∀ o ∈ all_orderings_within_group items sizes, o.length = sizes.sum
  | [], _, _, _, o, ho => absurd ho (by rw [all_orderings_within_group]; simp)
  | [s], items, hnd, hlen, o, ho => by
    rw [all_orderings_within_group] at ho
    rw [length_of_mem_combinations s items o ho]
    simp
  | s :: s2 :: rest, items, hnd, hlen, o, ho => by
    rw [all_orderings_within_group, List.mem_flatMap] at ho
    rcases ho with ⟨c, hc, ho⟩
    rcases List.mem_map.mp ho with ⟨arr, harr, rfl⟩
    have hcs := sublist_of_mem_combinations s items c hc
    have hclen := length_of_mem_combinations s items c hc
    have hflen : (items.filter fun a => decide (a ∉ c)).length =
        (s2 :: rest).sum := by
      rw [length_filter_not_mem c items hcs hnd, hclen, hlen, List.sum_cons]
      omega
    have harrlen := aowg_mem_length (s2 :: rest)
      (items.filter fun a => decide (a ∉ c)) (hnd.filter _) hflen arr harr
    rw [List.length_append, hclen, harrlen]
    simp [List.sum_cons]

theorem aowg_length : ∀ (sizes items : List Nat), items.Nodup →
    items.length = sizes.sum → sizes ≠ [] →
    (all_orderings_within_group items sizes).length =
      num_orderings_noRed sizes
  | [], _, _, _, hne => absurd rfl hne
  | [s], items, hnd, hlen, _ => by
    rw [all_orderings_within_group, combinations_length, hlen,
      List.sum_cons, List.sum_nil, num_orderings_noRed]
    exact Nat.choose_self _
  | s :: s2 :: rest, items, hnd, hlen, _ => by
    rw [all_orderings_within_group, length_flatMap, num_orderings_noRed]
    have hcount : ∀ c ∈ combinations s items,
        ((all_orderings_within_group
          (items.filter fun a => decide (a ∉ c)) (s2 :: rest)).map
            fun arr => c ++ arr).length = num_orderings_noRed (s2 :: rest) := by
      intro c hc
      have hcs := sublist_of_mem_combinations s items c hc
      have hclen := length_of_mem_combinations s items c hc
      have hflen : (items.filter fun a => decide (a ∉ c)).length =
          (s2 :: rest).sum := by
        rw [length_filter_not_mem c items hcs hnd, hclen, hlen, List.sum_cons]
        omega
      rw [List.length_map,
        aowg_length (s2 :: rest) _ (hnd.filter _) hflen (by simp)]
    rw [sum_map_constant _ _ (num_orderings_noRed (s2 :: rest)) hcount,
      combinations_length, hlen, List.sum_cons]

theorem aowg_nodup : ∀ (sizes items : List Nat), items.Nodup →
    (all_orderings_within_group items sizes).Nodup
  | [], _, _ => by rw [all_orderings_within_group]; exact List.nodup_nil
  | [s], items, hnd => by
    rw [all_orderings_within_group]
    exact nodup_combinations s items hnd
  | s :: s2 :: rest, items, hnd => by
    rw [all_orderings_within_group]
    rw [List.nodup_flatMap]
    constructor
    · intro c hc
      exact (aowg_nodup (s2 :: rest) _ (hnd.filter _)).map
        fun a b hab => by simpa using hab
    · have hnodup := nodup_combinations s items hnd
      refine List.Pairwise.imp_of_mem ?_ hnodup
      intro c1 c2 hc1 hc2 hne
      intro x hx1 hx2
      rcases List.mem_map.mp hx1 with ⟨a1, _, rfl⟩
      rcases List.mem_map.mp hx2 with ⟨a2, _, heq⟩
      have hlen12 : c2.length = c1.length := by
        rw [length_of_mem_combinations s items c1 hc1,
          length_of_mem_combinations s items c2 hc2]
      exact hne (List.append_inj heq.symm hlen12.symm).1

theorem pySet_nodup (l : List Nat) : (pySet l).Nodup :=
  (List.perm_insertionSort _ _).symm.nodup (List.nodup_dedup l)

theorem pySet_length_of_nodup (l : List Nat) (h : l.Nodup) :
    (pySet l).length = l.length := by
  rw [pySet, List.length_insertionSort, List.dedup_eq_self.mpr h]

theorem matchRun_sum : ∀ (full : List (List Nat)) (t : Nat)
    (run rest : List (List Nat)), matchRun full t = some (run, rest) →
    (run.map List.length).sum = t
  | full, 0, run, rest, h => by
    rw [matchRun] at h
    cases h
    simp
  | [], t + 1, run, rest, h => by rw [matchRun] at h; cases h
  | g :: gs, t + 1, run, rest, h => by
    rw [matchRun] at h
    by_cases hle : g.length ≤ t + 1
    · rw [if_pos hle] at h
      cases h2 : matchRun gs (t + 1 - g.length) with
      | none => rw [h2] at h; cases h
      | some p =>
        rw [h2, Option.map_some'] at h
        cases h
        rw [List.map_cons, List.sum_cons,
          matchRun_sum gs (t + 1 - g.length) p.1 p.2 (by rw [h2])]
        omega
    · rw [if_neg hle] at h
      cases h

theorem num_orderings_noRed_pos : ∀ sizes : List Nat,
    1 ≤ num_orderings_noRed sizes
  | [] => le_refl 1
  | [_] => le_refl 1
  | k :: k2 :: rest => by
    rw [num_orderings_noRed]
    exact Nat.mul_le_mul (Nat.choose_pos (Nat.le_add_right _ _))
      (num_orderings_noRed_pos (k2 :: rest))

theorem matchRun_ne_nil : ∀ (full : List (List Nat)) (t : Nat)
    (run rest : List (List Nat)), 0 < t → matchRun full t = some (run, rest) →
    run ≠ []
  | full, 0, _, _, ht, _ => absurd ht (by omega)
  | [], t + 1, _, _, _, h => by rw [matchRun] at h; cases h
  | g :: gs, t + 1, run, rest, _, h => by
    rw [matchRun] at h
    by_cases hle : g.length ≤ t + 1
    · rw [if_pos hle] at h
      cases h2 : matchRun gs (t + 1 - g.length) with
      | none => rw [h2] at h; cases h
      | some p =>
        rw [h2, Option.map_some'] at h
        cases h
        exact List.cons_ne_nil _ _
    · rw [if_neg hle] at h
      cases h

theorem all_orderings_sound : ∀ (reduced full : List (List Nat)),
    (∀ g ∈ reduced, g ≠ [] ∧ g.Nodup) → ∀ N : Nat,
    num_orderings_red full reduced = some N →
    ∃ l L, all_orderings full reduced = some l ∧ l.Nodup ∧ l.length ≤ N ∧
      ∀ o ∈ l, o.length = L
  | [], full, _, N, hN => by
    rw [num_orderings_red] at hN
    cases hN
    refine ⟨[[]], 0, rfl, List.nodup_singleton _, ?_, ?_⟩
    · simpa using num_orderings_noRed_pos (full.map List.length)
    · intro o ho
      rw [List.mem_singleton] at ho
      rw [ho, List.length_nil]
  | grp :: rest, full, hval, N, hN => by
    rw [num_orderings_red] at hN
    rw [all_orderings]
    cases hmr : matchRun full grp.length with
    | none => rw [hmr] at hN; cases hN
    | some p =>
      rw [hmr] at hN
      dsimp only at hN
      cases hrec : num_orderings_red p.2 rest with
      | none => rw [hrec] at hN; cases hN
      | some Nrest =>
        rw [hrec, Option.map_some'] at hN
        cases hN
        obtain ⟨hgne, hgnd⟩ := hval grp (by simp)
        have hgpos : 0 < grp.length := List.length_pos.mpr hgne
        have hitems : (pySet grp).length = (p.1.map List.length).sum := by
          rw [pySet_length_of_nodup grp hgnd,
            matchRun_sum full grp.length p.1 p.2 hmr]
        have hsne : p.1.map List.length ≠ [] := by
          have := matchRun_ne_nil full grp.length p.1 p.2 hgpos hmr
          simpa using this
        obtain ⟨ltail, Ltail, htl, htlnd, htllen, htlmem⟩ :=
          all_orderings_sound rest p.2
            (fun g hg => hval g (by simp [hg])) Nrest hrec
        dsimp only
        rw [if_pos hitems, htl, Option.map_some']
        refine ⟨(all_orderings_within_group (pySet grp)
            (p.1.map List.length)).flatMap fun o => ltail.map fun t => o ++ t,
          (p.1.map List.length).sum + Ltail, rfl, ?_, ?_, ?_⟩
        · rw [List.nodup_flatMap]
          constructor
          · intro o _
            exact htlnd.map fun a b hab => by simpa using hab
          · refine List.Pairwise.imp_of_mem ?_
              (aowg_nodup (p.1.map List.length) (pySet grp) (pySet_nodup grp))
            intro o1 o2 ho1 ho2 hne x hx1 hx2
            rcases List.mem_map.mp hx1 with ⟨t1, _, rfl⟩
            rcases List.mem_map.mp hx2 with ⟨t2, _, heq⟩
            have hlen12 : o2.length = o1.length := by
              rw [aowg_mem_length (p.1.map List.length) (pySet grp)
                  (pySet_nodup grp) hitems o1 ho1,
                aowg_mem_length (p.1.map List.length) (pySet grp)
                  (pySet_nodup grp) hitems o2 ho2]
            exact hne (List.append_inj heq.symm hlen12.symm).1
        · rw [length_flatMap,
            sum_map_constant _ _ ltail.length (fun o _ => List.length_map _ _),
            aowg_length (p.1.map List.length) (pySet grp) (pySet_nodup grp)
              hitems hsne]
          exact Nat.mul_le_mul_left _ htllen
        · intro o ho
          rw [List.mem_flatMap] at ho
          rcases ho with ⟨o1, ho1, ho⟩
          rcases List.mem_map.mp ho with ⟨t1, ht1, rfl⟩
          rw [List.length_append,
            aowg_mem_length (p.1.map List.length) (pySet grp)
              (pySet_nodup grp) hitems o1 ho1, htlmem t1 ht1]

theorem sampleLoop_length (R : Nat) : ∀ (draws seen : List (List Nat)),
    (sampleLoop R draws seen).length + seen.length ≤ R ∨
      sampleLoop R draws seen = []
  | [], seen => Or.inr rfl
  | d :: ds, seen => by
    rw [sampleLoop]
    by_cases h1 : R ≤ seen.length
    · rw [if_pos h1]
      exact Or.inr rfl
    · rw [if_neg h1]
      by_cases h2 : d ∈ seen
      · rw [if_pos h2]
        exact sampleLoop_length R ds seen
      · rw [if_neg h2]
        rcases sampleLoop_length R ds (d :: seen) with h | h

        · left
          rw [List.length_cons] at h ⊢
          omega
        · left
          rw [h, List.length_cons, List.length_nil]
          omega

theorem sampleLoop_nodup (R : Nat) : ∀ (draws seen : List (List Nat)),
    (sampleLoop R draws seen).Nodup ∧
      ∀ x ∈ sampleLoop R draws seen, x ∉ seen
  | [], _ => ⟨List.nodup_nil, by intro x hx; rw [sampleLoop] at hx; cases hx⟩
  | d :: ds, seen => by
    rw [sampleLoop]
    by_cases h1 : R ≤ seen.length
    · rw [if_pos h1]
      exact ⟨List.nodup_nil, by simp⟩
    · rw [if_neg h1]
      by_cases h2 : d ∈ seen
      · rw [if_pos h2]
        exact sampleLoop_nodup R ds seen
      · rw [if_neg h2]
        obtain ⟨ihnd, ihfresh⟩ := sampleLoop_nodup R ds (d :: seen)
        constructor
        · rw [List.nodup_cons]
          refine ⟨fun hmem => ?_, ihnd⟩
          exact (ihfresh d hmem) (by simp)
        · intro x hx
          rcases List.mem_cons.mp hx with rfl | hx2
          · exact h2
          · intro hxseen
            exact (ihfresh x hx2) (by simp [hxseen])

/-! ### Claim theorems -/

/-- C2: the F-test evaluator with `full_layout=[[0,1],[2,3]]` and
`reduced_layout=[[0,1,2,3]]` maps `a=[1,2,3,6]`, `b=[2,1,1,1]` and
`c=[3,1,10,4]` to 18/5, 1 and 5/2, which round to 3.6, 1.0 and 2.5 at one
decimal place; in general its value is
`((RSS_reduced − RSS_full) / (p_full − p_reduced)) / (RSS_full / (n − p_full))`. -/
theorem ftest_values_and_formula :
    ftestStat [[0,1],[2,3]] [[0,1,2,3]] [1,2,3,6] = 18/5 ∧
    ftestStat [[0,1],[2,3]] [[0,1,2,3]] [2,1,1,1] = 1 ∧
    ftestStat [[0,1],[2,3]] [[0,1,2,3]] [3,1,10,4] = 5/2 ∧
    round (ftestStat [[0,1],[2,3]] [[0,1,2,3]] [1,2,3,6] * 10) = (36 : ℤ) ∧
    round (ftestStat [[0,1],[2,3]] [[0,1,2,3]] [2,1,1,1] * 10) = (10 : ℤ) ∧
    round (ftestStat [[0,1],[2,3]] [[0,1,2,3]] [3,1,10,4] * 10) = (25 : ℤ) ∧
    ∀ full reduced : List (List Nat), ∀ data : List ℚ,
      ftestStat full reduced data =
        ((group_rss data reduced - group_rss data full) /
            ((full.length : ℚ) - (reduced.length : ℚ))) /
          (group_rss data full / ((lenLayout reduced : ℚ) - (full.length : ℚ))) := by
  have h1 : ftestStat [[0,1],[2,3]] [[0,1,2,3]] [1,2,3,6] = 18/5 := by
    norm_num [ftestStat, group_rss, residuals, group_means, groupMean, lenLayout,
      List.foldl, List.set, List.getD, List.get?]
  have h2 : ftestStat [[0,1],[2,3]] [[0,1,2,3]] [2,1,1,1] = 1 := by
    norm_num [ftestStat, group_rss, residuals, group_means, groupMean, lenLayout,
      List.foldl, List.set, List.getD, List.get?]
  have h3 : ftestStat [[0,1],[2,3]] [[0,1,2,3]] [3,1,10,4] = 5/2 := by
    norm_num [ftestStat, group_rss, residuals, group_means, groupMean, lenLayout,
      List.foldl, List.set, List.getD, List.get?]
  refine ⟨h1, h2, h3, ?_, ?_, ?_, ?_⟩
  · rw [h1]; norm_num [round_eq]
  · rw [h2]; norm_num [round_eq]
  · rw [h3]; norm_num [round_eq]
  · intro full reduced data
    rfl

/-- C7: `Ftest` construction fails with `UnsupportedLayoutException` exactly
when some full-layout group has fewer than two members; otherwise it succeeds
and stores the layouts unchanged. -/
theorem ftest_init_spec (full reduced : List (List Nat))
    (alphas : Option (List ℚ)) :
    (mkFtest full reduced alphas = none ↔ ∃ g ∈ full, g.length < 2) ∧
    ((∀ g ∈ full, 2 ≤ g.length) →
      mkFtest full reduced alphas = some ⟨full, reduced, alphas⟩) := by
  have hall : ((full.map List.length).all fun n => decide (1 < n)) = true ↔
      ∀ g ∈ full, 2 ≤ g.length := by
    simp only [List.all_eq_true, List.mem_map, decide_eq_true_eq]
    constructor
    · intro h g hg
      exact h _ ⟨g, hg, rfl⟩
    · rintro h n ⟨g, hg, rfl⟩
      exact h g hg
  constructor
  · rw [mkFtest]
    split_ifs with h
    · rw [hall] at h
      simp only [reduceCtorEq, false_iff]
      rintro ⟨g, hg, hlt⟩
      exact absurd (h g hg) (by omega)
    · rw [hall] at h
      push_neg at h
      rcases h with ⟨g, hg, hlt⟩
      simp only [true_iff]
      exact ⟨g, hg, by omega⟩
  · intro h
    rw [mkFtest, if_pos (hall.mpr h)]

/-- Witness for C7 at a concrete valid layout pair. -/
theorem ftest_init_spec_witness :
    mkFtest [[0,1],[2,3]] [[0,1,2,3]] none =
      some ⟨[[0,1],[2,3]], [[0,1,2,3]], none⟩ :=
  (ftest_init_spec [[0,1],[2,3]] [[0,1,2,3]] none).2 (by decide)

/-- C6, counterexample: on `data=[1,2,3,4]` with `layout=[[0,1]]` the layout's
index count (2) differs from the data's last-axis length (4), yet
`group_means`, `residuals` and `group_rss` all silently succeed instead of
failing with a `ShapeError`-kind condition. -/
theorem shape_mismatch_counterexample :
    group_means_chk [1,2,3,4] [[0,1]] = some [3/2] ∧
    residuals_chk [1,2,3,4] [[0,1]] = some [-(1/2), 1/2, 0, 0] ∧
    group_rss_chk [1,2,3,4] [[0,1]] = some (1/2) ∧
    lenLayout [[0,1]] = 2 ∧ [(1:ℚ),2,3,4].length = 4 ∧ (2 : Nat) ≠ 4 := by
  refine ⟨?_, ?_, ?_, by decide, by decide, by decide⟩ <;>
    norm_num [group_means_chk, residuals_chk, group_rss_chk, layoutInRange,
      group_means, residuals, group_rss, groupMean,
      List.foldl, List.set, List.getD, List.get?, List.replicate]

/-- C6, amended: `group_means`, `residuals` and `group_rss` fail (with numpy's
`IndexError`) exactly when the layout mentions an index that is out of range
for the data's last axis; a mere count mismatch with in-range indices is not
detected and the functions silently succeed on it. -/
theorem shape_mismatch_amended (data : List ℚ) (layout : List (List Nat)) :
    (group_means_chk data layout = none ↔
      ∃ g ∈ layout, ∃ i ∈ g, data.length ≤ i) ∧
    (residuals_chk data layout = none ↔
      ∃ g ∈ layout, ∃ i ∈ g, data.length ≤ i) ∧
    (group_rss_chk data layout = none ↔
      ∃ g ∈ layout, ∃ i ∈ g, data.length ≤ i) := by
  rw [group_means_chk, residuals_chk, group_rss_chk]
  by_cases h : layoutInRange data.length layout = true
  · rw [if_pos h, if_pos h, if_pos h]
    have hn := @layoutInRange_not_true data.length layout
    simp only [h, not_true_eq_false, false_iff] at hn
    simp [hn]
  · rw [if_neg h, if_neg h, if_neg h]
    have hn := layoutInRange_not_true.mp h
    simp [hn]

/-- C9: for a data row and a layout whose index count matches the data's
last-axis length (such a layout partitions the index range, so each index is
in range), `group_means` has one entry per group, `residuals` has the shape
of the data, and the residual sum of squares is non-negative. -/
theorem shapes_and_rss_nonneg (data : List ℚ) (layout : List (List Nat))
    (hmatch : lenLayout layout = data.length)
    (hrange : layoutInRange data.length layout = true) :
    (∃ m, group_means_chk data layout = some m ∧ m.length = layout.length) ∧
    (∃ r, residuals_chk data layout = some r ∧ r.length = data.length) ∧
    (∃ s, group_rss_chk data layout = some s ∧ 0 ≤ s) := by
  refine ⟨⟨group_means data layout, ?_, ?_⟩,
          ⟨residuals data layout, ?_, residuals_length data layout⟩,
          ⟨group_rss data layout, ?_, group_rss_nonneg data layout⟩⟩
  · rw [group_means_chk, if_pos hrange]
  · simp [group_means]
  · rw [residuals_chk, if_pos hrange]
  · rw [group_rss_chk, if_pos hrange]

/-- Witness for C9 at the F-test doctest data and layout. -/
theorem shapes_and_rss_nonneg_witness :
    (∃ m, group_means_chk [1,2,3,6] [[0,1],[2,3]] = some m ∧
      m.length = [[0,1],[2,3]].length) ∧
    (∃ r, residuals_chk [1,2,3,6] [[0,1],[2,3]] = some r ∧
      r.length = [(1:ℚ),2,3,6].length) ∧
    (∃ s, group_rss_chk [1,2,3,6] [[0,1],[2,3]] = some s ∧ 0 ≤ s) :=
  shapes_and_rss_nonneg [1,2,3,6] [[0,1],[2,3]] (by decide) (by decide)

/-- C5: `num_orderings` is 36 on the 8-sample paired layouts and 6 on
`[[0,1],[2,3]]` with no reduced layout; with no reduced layout the count is
the product over groups of binomial coefficients "choose the group's size out
of what remains" (equivalently, the multinomial coefficient: the count times
the product of the factorials of the group sizes is the factorial of the
total), and with a reduced layout it is the product of the no-reduced counts
of the contiguous runs of full groups matched to each reduced group. -/
theorem num_orderings_spec :
    num_orderings [[0,1],[2,3],[4,5],[6,7]] (some [[0,1,2,3],[4,5,6,7]]) =
      some 36 ∧
    num_orderings [[0,1],[2,3]] none = some 6 ∧
    (∀ sizes : List Nat,
      num_orderings_noRed sizes * (sizes.map Nat.factorial).prod =
        sizes.sum.factorial) ∧
    (∀ full grp rest, num_orderings_red full (grp :: rest) =
      (matchRun full grp.length).bind fun p =>
        (num_orderings_red p.2 rest).map fun b =>
          num_orderings_noRed (p.1.map List.length) * b) := by
  refine ⟨by decide, by decide, ?_, ?_⟩
  · intro sizes
    induction sizes with
    | nil => simp [num_orderings_noRed]
    | cons k rest ih =>
      cases rest with
      | nil => simp [num_orderings_noRed]
      | cons k2 r2 =>
        rw [num_orderings_noRed]
        have hle : k ≤ k + (k2 :: r2).sum := Nat.le_add_right _ _
        have hch := Nat.choose_mul_factorial_mul_factorial hle
        rw [Nat.add_sub_cancel_left] at hch
        calc Nat.choose (k + (k2 :: r2).sum) k * num_orderings_noRed (k2 :: r2) *
              ((k :: k2 :: r2).map Nat.factorial).prod
            = Nat.choose (k + (k2 :: r2).sum) k * Nat.factorial k *
              (num_orderings_noRed (k2 :: r2) *
                ((k2 :: r2).map Nat.factorial).prod) := by
              simp [List.map_cons, List.prod_cons]; ring
          _ = Nat.choose (k + (k2 :: r2).sum) k * Nat.factorial k *
              Nat.factorial ((k2 :: r2).sum) := by rw [ih]
          _ = Nat.factorial ((k :: k2 :: r2).sum) := by
              rw [hch]; simp [List.sum_cons]
  · intro full grp rest
    rw [num_orderings_red]
    cases matchRun full grp.length <;> rfl

/-- C10: with `indexes=None` and `sample_layout=None`, `bootstrap` draws its
default index range from `np.shape(data)[1]` — the axis-1 extent, not the
last axis — so the default path fails (`IndexError`) on one-dimensional data,
and for data of three or more dimensions (e.g. shape `[2,3,4]`) the drawn
index range differs from the last-axis extent. -/
theorem bootstrap_default_axis1 :
    (∀ n, defaultSampleLayout [n] = none) ∧
    (∀ m n rest, defaultSampleLayout (m :: n :: rest) = some [List.range n]) ∧
    (defaultSampleLayout [2,3,4] = some [List.range 3] ∧
      [2,3,4].getLast? = some 4 ∧ (3 : Nat) ≠ 4) ∧
    (∀ data statFn R res rand,
      bootstrap data statFn R none none res none rand =
        (defaultSampleLayout (npShape data)).map fun sl =>
          Sum.inl ((random_indexes sl R rand).map fun p =>
            statFn (build_sample data res p))) := by
  refine ⟨?_, ?_, ⟨by decide, by decide, by decide⟩, ?_⟩
  · intro n; rfl
  · intro m n rest; rfl
  · intro data statFn R res rand
    rw [bootstrap, bootstrapIndexes]
    cases h : defaultSampleLayout (npShape data) <;> simp [h]

/-- C4, counterexample: `cumulative_hist([5], [0,1,2])` is `[0, 0]`, but one
value (namely 5) is ≥ edge 0 and ≥ edge 1 — `np.histogram` drops values above
the last edge, so entry `i` is not "the number of values ≥ edge[i]". -/
theorem cumulative_hist_counterexample :
    cumulative_hist [5] [0,1,2] = [0, 0] ∧
    ([(5:ℚ)].countP fun v => decide (([(0:ℚ),1,2]).getD 0 0 ≤ v)) = 1 ∧
    ([(5:ℚ)].countP fun v => decide (([(0:ℚ),1,2]).getD 1 0 ≤ v)) = 1 ∧
    (0 : ℚ) ≠ 1 := by
  refine ⟨by decide, by decide, by decide, by norm_num⟩

/-- C4, amended: for non-decreasing edges of length `num_bins + 1`,
`cumulative_hist(values, bins)` has length `num_bins` and its entry `i` is
the number of values `v` with `edge[i] ≤ v ≤ edge[num_bins]` — the
right-cumulative tail count *clipped at the last edge* (values above the last
edge are not counted by `np.histogram`). -/
theorem cumulative_hist_tail_count (values bins : List ℚ) (B : Nat)
    (hmono : bins.Pairwise (· ≤ ·)) (hlen : bins.length = B + 1) :
    (cumulative_hist values bins).length = cumulative_hist_shape bins ∧
    cumulative_hist_shape bins = B ∧
    ∀ i, i < B →
      (cumulative_hist values bins).getD i 0 =
        ((values.countP fun v =>
          decide (bins.getD i 0 ≤ v ∧ v ≤ bins.getLast?.getD 0) : Nat) : ℚ) := by
  refine ⟨?_, ?_, ?_⟩
  · rw [cumulative_hist, List.length_map, suffixSums_length,
      histogram_length, cumulative_hist_shape]
  · rw [cumulative_hist_shape, hlen]
    omega
  · intro i hi
    rw [cumulative_hist, map_natCast_getD,
      suffix_hist_getD values bins hmono i (by omega)]

/-- Witness for C4's amended theorem at `values=[1,3,2]`, `bins=[0,2,4]`. -/
theorem cumulative_hist_tail_count_witness :
    (cumulative_hist [1,3,2] [0,2,4]).length = cumulative_hist_shape [0,2,4] ∧
    cumulative_hist_shape [0,2,4] = 2 ∧
    ∀ i, i < 2 →
      (cumulative_hist [1,3,2] [0,2,4]).getD i 0 =
        ((([(1:ℚ),3,2]).countP fun v =>
          decide (([(0:ℚ),2,4]).getD i 0 ≤ v ∧
            v ≤ ([(0:ℚ),2,4]).getLast?.getD 0) : Nat) : ℚ) :=
  cumulative_hist_tail_count [1,3,2] [0,2,4] 2 (by decide) (by decide)

/-- C8, counterexample: on `data=[-1, 1]` with conditions `[0]`, `[1]` and one
block `[0,1]`, the block ratio is `-1`; `scipy.stats.gmean` takes `log` of a
negative number (`nan` in the float code, `none` here), so the symmetric
MeansRatio statistic has no value ≥ 1: the claim fails for this data tensor. -/
theorem means_ratio_counterexample :
    means_ratio_call [0] [1] [[0,1]] true [(-1:ℝ), 1] = none ∧
    ¬ ∃ v, means_ratio_call [0] [1] [[0,1]] true [(-1:ℝ), 1] = some v ∧
      1 ≤ v := by
  have h : means_ratio_call [0] [1] [[0,1]] true [(-1:ℝ), 1] = none := by
    rw [means_ratio_call]
    norm_num [group_meansR, gmeanOpt, List.filter]
  refine ⟨h, ?_⟩
  rintro ⟨v, hv, _⟩
  rw [h] at hv
  exact Option.noConfusion hv

/-- C8, amended: whenever every block's ratio of condition-0 mean to
condition-1 mean is strictly positive (in particular when all block condition
means are positive), the symmetric MeansRatio statistic is defined, is ≥ 1,
and is unchanged when the two condition groups are swapped.  When some block
ratio is non-positive the geometric mean has no real value (float `nan`) and
the statistic is undefined. -/
theorem means_ratio_symmetric_spec (cond0 cond1 : List Nat)
    (blocks : List (List Nat)) (data : List ℝ)
    (hpos : ∀ r ∈ List.zipWith (· / ·)
        (group_meansR data
          (blocks.map fun b => b.filter fun i => decide (i ∈ cond0)))
        (group_meansR data
          (blocks.map fun b => b.filter fun i => decide (i ∈ cond1))),
        0 < r) :
    ∃ v, means_ratio_call cond0 cond1 blocks true data = some v ∧ 1 ≤ v ∧
      means_ratio_call cond1 cond0 blocks true data = some v := by
  set m0 := group_meansR data
    (blocks.map fun b => b.filter fun i => decide (i ∈ cond0)) with hm0
  set m1 := group_meansR data
    (blocks.map fun b => b.filter fun i => decide (i ∈ cond1)) with hm1
  set r := List.zipWith (· / ·) m0 m1 with hr
  have hprod : 0 < r.prod := List.prod_pos hpos
  set g := r.prod ^ ((r.length : ℝ))⁻¹ with hg
  have hgpos : 0 < g := Real.rpow_pos_of_pos hprod _
  have hfwd : means_ratio_call cond0 cond1 blocks true data =
      some (max g (1 / g)) := by
    rw [means_ratio_call]
    simp only [← hm0, ← hm1, ← hr, gmeanOpt, if_pos hpos, ← hg,
      Option.map_some]
    simp
  have hswap : List.zipWith (· / ·) m1 m0 = r.map fun x => x⁻¹ :=
    zipWith_div_swap m0 m1
  have hpos2 : ∀ x ∈ List.zipWith (· / ·) m1 m0, 0 < x := by
    rw [hswap]
    intro x hx
    rcases List.mem_map.mp hx with ⟨y, hy, rfl⟩
    exact inv_pos.mpr (hpos y hy)
  have hbwd : means_ratio_call cond1 cond0 blocks true data =
      some (max g⁻¹ (1 / g⁻¹)) := by
    rw [means_ratio_call]
    simp only [← hm0, ← hm1, gmeanOpt, if_pos hpos2, Option.map_some]
    rw [hswap, prod_map_inv, List.length_map,
      Real.inv_rpow hprod.le, ← hg]
    simp
  have hsame : max g⁻¹ (1 / g⁻¹) = max g (1 / g) := by
    rw [one_div, inv_inv, one_div, max_comm]
  have hone : 1 ≤ max g (1 / g) := by
    by_cases h1 : 1 ≤ g
    · exact le_trans h1 (le_max_left _ _)
    · exact le_trans (one_le_one_div hgpos (le_of_not_le h1))
        (le_max_right _ _)
  exact ⟨max g (1 / g), hfwd, hone, by rw [hbwd, hsame]⟩

/-- Witness for C8's amended theorem: `data=[2,1]`, conditions `[0]`, `[1]`,
one block `[0,1]`. -/
theorem means_ratio_symmetric_spec_witness :
    ∃ v, means_ratio_call [0] [1] [[0,1]] true [(2:ℝ), 1] = some v ∧ 1 ≤ v ∧
      means_ratio_call [1] [0] [[0,1]] true [(2:ℝ), 1] = some v :=
  means_ratio_symmetric_spec [0] [1] [[0,1]] [(2:ℝ), 1]
    (by simp [group_meansR, List.filter, zero_lt_two])

/-- C3: `bootstrap` with `bins=None` returns one row per draw — `R` rows when
the `R` index rows are drawn from a sample layout — and row `i` is `stat_fn`
applied to the `i`-th resampled data set; with `bins` supplied it returns the
per-feature average cumulative histogram: the sum over all draws of
`cumulative_hist(stat_fn(sample), bins)` divided by the number of draws. -/
theorem bootstrap_spec (data : List (List ℚ)) (statFn : List (List ℚ) → List ℚ)
    (R M : Nat) (sl : List (List Nat)) (res : Option (List (List ℚ)))
    (rand : Nat → Nat → Nat → Nat)
    (hstat : ∀ s, (statFn s).length = M) :
    (∃ stats, bootstrap data statFn R (some sl) none res none rand =
        some (Sum.inl stats) ∧
      stats.length = R ∧ (∀ row ∈ stats, row.length = M) ∧
      ∀ i, i < R → stats.getD i [] =
        statFn (build_sample data res
          ((random_indexes sl R rand).getD i []))) ∧
    (∀ ix : List (List Nat), ∀ b : List (List ℚ), ∀ B : Nat,
      b.length = M → (∀ e ∈ b, e.length = B + 1) →
      ∃ r, bootstrap data statFn R (some sl) (some ix) res (some b) rand =
          some (Sum.inr r) ∧
        r.length = M ∧ (∀ row ∈ r, row.length = B) ∧
        ∀ i j, i < M → j < B →
          entry r i j =
            ((ix.map fun p =>
              entry (cumulative_hist_pf (statFn (build_sample data res p)) b)
                i j).sum) / (ix.length : ℚ)) := by
  have hlenri : (random_indexes sl R rand).length = R := by
    rw [random_indexes, List.length_map, List.length_range]
  constructor
  · refine ⟨(random_indexes sl R rand).map fun p =>
      statFn (build_sample data res p), rfl, ?_, ?_, ?_⟩
    · rw [List.length_map, hlenri]
    · intro row hrow
      rcases List.mem_map.mp hrow with ⟨p, _, rfl⟩
      exact hstat _
    · intro i hi
      exact getD_map_of_lt _ _ _ [] [] (by rw [hlenri]; exact hi)
  · intro ix b B hbM he
    have hzero : Shaped (histZeros b) M B := shaped_histZeros hbM he
    have hhists : ∀ h ∈ (ix.map fun p => statFn (build_sample data res p)).map
        fun v => cumulative_hist_pf v b, Shaped h M B := by
      intro h hh
      rcases List.mem_map.mp hh with ⟨v, hv, rfl⟩
      rcases List.mem_map.mp hv with ⟨p, _, rfl⟩
      exact shaped_cumulative_hist_pf (hstat _) hbM he
    obtain ⟨hFsh, hFent⟩ := foldl_matAdd
      ((ix.map fun p => statFn (build_sample data res p)).map
        fun v => cumulative_hist_pf v b) M B (histZeros b) hzero hhists
    rw [List.foldl_map] at hFsh hFent
    set F := (ix.map fun p => statFn (build_sample data res p)).foldl
      (fun acc v => matAdd acc (cumulative_hist_pf v b)) (histZeros b) with hF
    refine ⟨F.map fun row => row.map fun x => x / (ix.length : ℚ),
      ?_, ?_, ?_, ?_⟩
    · rw [hF]
      rfl
    · rw [List.length_map, hFsh.1]
    · intro row hrow
      rcases List.mem_map.mp hrow with ⟨row0, hrow0, rfl⟩
      rw [List.length_map, hFsh.2 _ hrow0]
    · intro i j hi hj
      have hiF : i < F.length := by rw [hFsh.1]; exact hi
      have hrowlen : (F.getD i []).length = B := by
        rw [getD_of_lt _ _ _ hiF]
        exact hFsh.2 _ (by rw [List.get_eq_getElem]; exact List.getElem_mem hiF)
      rw [entry, getD_map_of_lt _ _ _ [] [] hiF,
        getD_map_of_lt _ _ _ 0 0 (by rw [hrowlen]; exact hj)]
      have := hFent i j hi hj
      rw [entry] at this
      rw [this, entry_histZeros, zero_add, List.map_map, List.map_map]
      rfl

/-- Witness for C3 at a one-feature data set with an explicit statistic. -/
theorem bootstrap_spec_witness :
    (∃ stats, bootstrap [[1,2]] (fun s => [(s.headD []).sum]) 1
        (some [[0,1]]) none none none (fun _ _ _ => 0) =
        some (Sum.inl stats) ∧
      stats.length = 1 ∧ (∀ row ∈ stats, row.length = 1) ∧
      ∀ i, i < 1 → stats.getD i [] =
        (fun s : List (List ℚ) => [(s.headD []).sum]) ([[1,2]].map fun row =>
          (((random_indexes [[0,1]] 1 (fun _ _ _ => 0)).getD i []).map
            fun k => row.getD k 0))) ∧
    (∀ ix : List (List Nat), ∀ b : List (List ℚ), ∀ B : Nat,
      b.length = 1 → (∀ e ∈ b, e.length = B + 1) →
      ∃ r, bootstrap [[1,2]] (fun s => [(s.headD []).sum]) 1
          (some [[0,1]]) (some ix) none (some b) (fun _ _ _ => 0) =
          some (Sum.inr r) ∧
        r.length = 1 ∧ (∀ row ∈ r, row.length = B) ∧
        ∀ i j, i < 1 → j < B →
          entry r i j =
            ((ix.map fun p =>
              entry (cumulative_hist_pf
                ((fun s : List (List ℚ) => [(s.headD []).sum])
                  (build_sample [[1,2]] none p)) b) i j).sum) /
              (ix.length : ℚ)) := by
  have h := bootstrap_spec [[1,2]] (fun s => [(s.headD []).sum]) 1 1
    [[0,1]] none (fun _ _ _ => 0) (fun s => rfl)
  exact ⟨h.1, h.2⟩

/-- C1: for a valid full/reduced layout pair (each reduced group a non-empty
set of indices, and the pair reconcilable so that `num_orderings` returns a
count `N`), `random_orderings(full, reduced, R)` yields at most `R`
orderings, never yields the same ordering twice (for any stream of random
draws), and when `R ≥ N` it yields exactly the list produced by
`all_orderings` — every exact ordering exactly once. -/
theorem random_orderings_spec (full reduced : List (List Nat)) (R N : Nat)
    (hval : ∀ g ∈ reduced, g ≠ [] ∧ g.Nodup)
    (hN : num_orderings full (some reduced) = some N)
    (draws : List (List Nat)) :
    ∃ out, random_orderings full reduced R draws = some out ∧
      out.length ≤ R ∧ out.Nodup ∧
      (N ≤ R → all_orderings full reduced = some out) := by
  rw [random_orderings, hN]
  dsimp only
  by_cases hcmp : N ≤ R
  · rw [if_pos hcmp]
    obtain ⟨l, L, hl, hnd, hlen, _⟩ :=
      all_orderings_sound reduced full hval N hN
    exact ⟨l, hl, le_trans hlen hcmp, hnd, fun _ => hl⟩
  · rw [if_neg hcmp]
    refine ⟨sampleLoop R draws [], rfl, ?_,
      (sampleLoop_nodup R draws []).1, fun h => absurd h hcmp⟩
    rcases sampleLoop_length R draws [] with h | h
    · simpa using h
    · rw [h]
      exact Nat.zero_le R

/-- Witness for C1 at the doctest layouts, in the exhaustive branch. -/
theorem random_orderings_spec_witness :
    ∃ out, random_orderings [[0,1],[2,3]] [[0,1,2,3]] 6 [] = some out ∧
      out.length ≤ 6 ∧ out.Nodup ∧
      (6 ≤ 6 → all_orderings [[0,1],[2,3]] [[0,1,2,3]] = some out) :=
  random_orderings_spec [[0,1],[2,3]] [[0,1,2,3]] 6 6 (by decide)
    (by decide) []

end PadeStat
